import Mathlib

/-!
Verification of the string-context primitives of the Nix evaluator
(`src/libexpr/primops/context.cc`): the context data model, the five
builtins (`unsafeDiscardStringContext`, `hasContext`,
`unsafeDiscardOutputDependency`, `getContext`, `appendContext`), and the
properties the specification states about them.

Shallow embedding conventions:
* A `StorePath` is represented by its printed form (a `String`); the store
  collaborator's `parseStorePath`/`printStorePath` are mutually inverse, so
  identifying a path with its printed form is faithful.  The syntactic
  validity test `Store::isStorePath` lives in the store collaborator, so it
  is a parameter (`isSP`) of the embedding.
* `NixStringContext` is `std::set<NixStringContextElem>`; it is modelled as
  a duplicate-free `List ContextElem` in the set's iteration order, with
  `insertElem` modelling `set::emplace`.
* Evaluator values are modelled by the inductive `Value`; the evaluator's
  forcing/coercion collaborators are modelled from the spec (§4.1, §6).
* The store-existence side effect (`ensurePath`, skipped in read-only mode)
  has no observable effect on the produced value and is not modelled; per
  the spec (§5) `appendContext` is a pure function of its inputs in
  read-only mode.
-/

/-- One element of a string context: `NixStringContextElem`, a closed
tagged union with variants `Opaque`, `Built` and `DrvDeep`. -/
inductive ContextElem where
  | Opaque (path : String)
  | Built (drvPath : String) (output : String)
  | DrvDeep (drvPath : String)
deriving DecidableEq, Repr

/-- The `StorePath` a context element refers to (its `path` or `drvPath`
field). -/
def ContextElem.storePath : ContextElem → String
  | .Opaque path => path
  | .Built drvPath _ => drvPath
  | .DrvDeep drvPath => drvPath

/-- `std::set::emplace` on the context modelled on the iteration list:
insert the element when it is not already present. -/
def insertElem (c : List ContextElem) (e : ContextElem) : List ContextElem :=
  if e ∈ c then c else c ++ [e]

/-- The errors the primitives (and the collaborators they consume) raise:
the spec's taxonomy (§7). -/
inductive EvalErr where
  | typeError
  | coercionError
  | stringHasContext
  | contextKeyNotStorePath (key : String)
  | notADerivation (key : String)
deriving DecidableEq, Repr

/-- An evaluator value, as far as the context primitives observe one. -/
inductive Value where
  | str (text : String) (context : List ContextElem)
  | bool (b : Bool)
  | path (p : String)
  | list (items : List Value)
  | attrs (binds : List (String × Value))

/-- Modelled from the spec (§4.1): `forceString` requires the value to
already be a string and yields its text and context; it fails with a
TypeError otherwise (no coercion). -/
def forceString : Value → Except EvalErr (String × List ContextElem)
  | .str t c => .ok (t, c)
  | _ => .error .typeError

/-- Modelled from the spec (§4.1): `coerceToString` converts a value to its
string representation, accumulating context; it never fails on strings,
turns a filesystem path into its text carrying a plain (Opaque) reference,
and fails with a CoercionError on values that cannot be stringized. -/
def coerceToString : Value → Except EvalErr (String × List ContextElem)
  | .str t c => .ok (t, c)
  | .path p => .ok (p, [.Opaque p])
  | _ => .error .coercionError

/-- Modelled from the spec (§6): `forceBool` requires a boolean. -/
def forceBool : Value → Except EvalErr Bool
  | .bool b => .ok b
  | _ => .error .typeError

/-- Modelled from the spec (§6): `forceAttrs` requires an attribute set. -/
def forceAttrs : Value → Except EvalErr (List (String × Value))
  | .attrs binds => .ok binds
  | _ => .error .typeError

/-- Modelled from the spec (§6): `forceList` requires a list. -/
def forceList : Value → Except EvalErr (List Value)
  | .list items => .ok items
  | _ => .error .typeError

/-- Modelled from the spec (§3, §4.6): `forceStringNoCtx` requires a plain
string with empty context; it fails if the value is not a string or if the
string carries context. -/
def forceStringNoCtx : Value → Except EvalErr String
  | .str t [] => .ok t
  | .str _ (_ :: _) => .error .stringHasContext
  | _ => .error .typeError

/-- Modelled from the spec (§2, §3): `isDerivation(path)` is true iff the
path denotes a derivation description, identified by the reserved `.drv`
suffix of its printed form (as in the spec's concrete example
`/nix/store/arhvjaf6zmlyn8vh8fgn55rpwnxq0n7l-a.drv`). -/
def isDerivation (s : String) : Bool :=
  List.isSuffixOf ".drv".data s.data

/-- `Bindings::find` on an attribute set: the value bound to `name`. -/
def attrsFind : List (String × Value) → String → Option Value
  | [], _ => none
  | (k, v) :: rest, name => if k = name then some v else attrsFind rest name

/-- `prim_unsafeDiscardStringContext`: coerce the argument to a string and
return its text with an empty context. -/
def prim_unsafeDiscardStringContext (arg : Value) : Except EvalErr Value := do
  let (s, _context) ← coerceToString arg
  return Value.str s []

/-- `prim_hasContext`: force the argument as a string and report whether
its context is non-empty. -/
def prim_hasContext (arg : Value) : Except EvalErr Value := do
  let (_, context) ← forceString arg
  return Value.bool (!context.isEmpty)

/-- The per-element mapping of `prim_unsafeDiscardOutputDependency`'s loop:
a `DrvDeep` element is downgraded to an `Opaque` element for the same
derivation path, other elements are reused unchanged. -/
def discardDep : ContextElem → ContextElem
  | .DrvDeep drvPath => .Opaque drvPath
  | c => c

/-- `prim_unsafeDiscardOutputDependency`: coerce the argument, rebuild the
context with every `DrvDeep` downgraded to `Opaque` (`context2` is a fresh
set filled by `emplace`), and return the same text with the new context. -/
def prim_unsafeDiscardOutputDependency (arg : Value) : Except EvalErr Value := do
  let (s, context) ← coerceToString arg
  let context2 := context.foldl (fun acc c => insertElem acc (discardDep c)) []
  return Value.str s context2

/-- The `ContextInfo` record `prim_getContext` accumulates per store path:
`path`, `allOutputs` (default `false`) and `outputs` (default empty). -/
structure ContextInfo where
  path : Bool := false
  allOutputs : Bool := false
  outputs : List String := []
deriving DecidableEq, Repr

/-- `std::map::find` on the grouping map of `prim_getContext`, modelled on
an association list. -/
def lookupInfo : List (String × ContextInfo) → String → Option ContextInfo
  | [], _ => none
  | (k, v) :: rest, p => if k = p then some v else lookupInfo rest p

/-- `contextInfos[key]` followed by a field update: update the record at
`key` in place, default-constructing it when absent (as `operator[]`
does). -/
def updateInfo : List (String × ContextInfo) → String → (ContextInfo → ContextInfo) →
    List (String × ContextInfo)
  | [], key, f => [(key, f {})]
  | (k, v) :: rest, key, f =>
      if k = key then (k, f v) :: rest else (k, v) :: updateInfo rest key f

/-- The field update one context element performs on its path's record in
`prim_getContext`'s visitor: `DrvDeep` sets `allOutputs`, `Built` appends
its output name, `Opaque` sets `path`. -/
def elemUpdate : ContextElem → ContextInfo → ContextInfo
  | .DrvDeep _ => fun i => { i with allOutputs := true }
  | .Built _ output => fun i => { i with outputs := i.outputs ++ [output] }
  | .Opaque _ => fun i => { i with path := true }

/-- The grouping loop of `prim_getContext`: fold the context into a map
from store path to `ContextInfo` (one `operator[]`-update per element, in
context iteration order, so `outputs` lists output names in
first-encountered order). -/
def contextInfos (context : List ContextElem) : List (String × ContextInfo) :=
  context.foldl (fun m e => updateInfo m e.storePath (elemUpdate e)) []

/-- The attribute bindings `prim_getContext` builds for one record: `path`
and `allOutputs` only when true, `outputs` only when non-empty (absent
fields are omitted entirely). -/
def infoToAttrsBinds (info : ContextInfo) : List (String × Value) :=
  (if info.path then [("path", Value.bool true)] else []) ++
  (if info.allOutputs then [("allOutputs", Value.bool true)] else []) ++
  (if info.outputs.isEmpty then []
   else [("outputs", Value.list (info.outputs.map (fun o => Value.str o [])))])

/-- The record value for one store path in `prim_getContext`'s result. -/
def infoToAttrs (info : ContextInfo) : Value :=
  Value.attrs (infoToAttrsBinds info)

/-- `prim_getContext`: force the argument as a string, group its context
elements by store path, and return the attribute set keyed by each printed
store path (printing is the identity in this embedding). -/
def prim_getContext (arg : Value) : Except EvalErr Value := do
  let (_, context) ← forceString arg
  return Value.attrs ((contextInfos context).map (fun kv => (kv.1, infoToAttrs kv.2)))

/-- The `path` attribute of one `appendContext` entry: when present and
forced to `true`, add an `Opaque` element for the key. -/
def addPathAttr (binds : List (String × Value)) (name : String)
    (context : List ContextElem) : Except EvalErr (List ContextElem) :=
  match attrsFind binds "path" with
  | none => .ok context
  | some pv => do
      let b ← forceBool pv
      if b then pure (insertElem context (ContextElem.Opaque name)) else pure context

/-- The `allOutputs` attribute of one `appendContext` entry: when present
and forced to `true`, require the key to be a derivation (else the
"not a derivation" EvalError) and add a `DrvDeep` element. -/
def addAllOutputsAttr (binds : List (String × Value)) (name : String)
    (context : List ContextElem) : Except EvalErr (List ContextElem) :=
  match attrsFind binds "allOutputs" with
  | none => .ok context
  | some av => do
      let b ← forceBool av
      if b then
        if isDerivation name = false then
          Except.error (EvalErr.notADerivation name)
        else
          pure (insertElem context (ContextElem.DrvDeep name))
      else
        pure context

/-- The loop over the `outputs` list of one `appendContext` entry: force
each element as a context-free string and add a `Built` element for it. -/
def addOutputs (name : String) : List Value → List ContextElem →
    Except EvalErr (List ContextElem)
  | [], context => .ok context
  | elem :: rest, context => do
      let outputName ← forceStringNoCtx elem
      addOutputs name rest (insertElem context (ContextElem.Built name outputName))

/-- The `outputs` attribute of one `appendContext` entry: when present,
force it as a list; when the list is non-empty the key must be a derivation
(checked once for the whole list, before any element is processed), then
each listed name adds a `Built` element. -/
def addOutputsAttr (binds : List (String × Value)) (name : String)
    (context : List ContextElem) : Except EvalErr (List ContextElem) :=
  match attrsFind binds "outputs" with
  | none => .ok context
  | some ov => do
      let items ← forceList ov
      if items.isEmpty = false && isDerivation name = false then
        Except.error (EvalErr.notADerivation name)
      else
        addOutputs name items context

/-- One key/value entry of `prim_appendContext`'s loop: the key must parse
as a store path (else the "context key is not a store path" EvalError,
raised before any field of the entry is looked at), the value is forced as
an attribute set, then its `path`, `allOutputs` and `outputs` attributes
are processed in that order. -/
def appendContextEntry (isSP : String → Bool) (context : List ContextElem)
    (name : String) (val : Value) : Except EvalErr (List ContextElem) :=
  if isSP name = false then
    Except.error (EvalErr.contextKeyNotStorePath name)
  else do
    let binds ← forceAttrs val
    let context ← addPathAttr binds name context
    let context ← addAllOutputsAttr binds name context
    addOutputsAttr binds name context

/-- The loop of `prim_appendContext` over the mapping's entries, threading
the accumulated context. -/
def appendEntries (isSP : String → Bool) : List (String × Value) → List ContextElem →
    Except EvalErr (List ContextElem)
  | [], context => .ok context
  | (name, val) :: rest, context => do
      let context ← appendContextEntry isSP context name val
      appendEntries isSP rest context

/-- `prim_appendContext`: force the first argument as a string (strict, not
coercing), force the second as an attribute set, process every entry into
the string's context, and return the original text with the extended
context.  `isSP` is the store collaborator's `isStorePath` syntax test. -/
def prim_appendContext (isSP : String → Bool) (arg0 arg1 : Value) :
    Except EvalErr Value := do
  let (orig, context) ← forceString arg0
  let binds ← forceAttrs arg1
  let context ← appendEntries isSP binds context
  return Value.str orig context

/-!
Derived views of `appendContext`, used to reason about it: the list of
*newly constructed* context elements of one entry (and of the whole
mapping), computed without the original context.  `appendContext`'s result
context is then the fold of `insertElem` of these elements into the
original context (theorem `prim_appendContext_norm` below).
-/

/-- The elements the `path` attribute of one entry constructs. -/
def pathAttrElems (binds : List (String × Value)) (name : String) :
    Except EvalErr (List ContextElem) :=
  match attrsFind binds "path" with
  | none => .ok []
  | some pv => do
      let b ← forceBool pv
      if b then pure [ContextElem.Opaque name] else pure []

/-- The elements the `allOutputs` attribute of one entry constructs. -/
def allOutputsAttrElems (binds : List (String × Value)) (name : String) :
    Except EvalErr (List ContextElem) :=
  match attrsFind binds "allOutputs" with
  | none => .ok []
  | some av => do
      let b ← forceBool av
      if b then
        if isDerivation name = false then
          Except.error (EvalErr.notADerivation name)
        else
          pure [ContextElem.DrvDeep name]
      else
        pure []

/-- The `Built` elements an `outputs` list constructs, in list order. -/
def outputsElems (name : String) : List Value → Except EvalErr (List ContextElem)
  | [] => .ok []
  | elem :: rest => do
      let outputName ← forceStringNoCtx elem
      let es ← outputsElems name rest
      pure (ContextElem.Built name outputName :: es)

/-- The elements the `outputs` attribute of one entry constructs. -/
def outputsAttrElems (binds : List (String × Value)) (name : String) :
    Except EvalErr (List ContextElem) :=
  match attrsFind binds "outputs" with
  | none => .ok []
  | some ov => do
      let items ← forceList ov
      if items.isEmpty = false && isDerivation name = false then
        Except.error (EvalErr.notADerivation name)
      else
        outputsElems name items

/-- The elements one key/value entry of `appendContext` constructs. -/
def entryElems (isSP : String → Bool) (name : String) (val : Value) :
    Except EvalErr (List ContextElem) :=
  if isSP name = false then
    Except.error (EvalErr.contextKeyNotStorePath name)
  else do
    let binds ← forceAttrs val
    let es1 ← pathAttrElems binds name
    let es2 ← allOutputsAttrElems binds name
    let es3 ← outputsAttrElems binds name
    pure (es1 ++ es2 ++ es3)

/-- The elements a whole `appendContext` mapping constructs, entry by
entry. -/
def entriesElems (isSP : String → Bool) : List (String × Value) →
    Except EvalErr (List ContextElem)
  | [] => .ok []
  | (name, val) :: rest => do
      let es ← entryElems isSP name val
      let esRest ← entriesElems isSP rest
      pure (es ++ esRest)

/-- The output names of all `Built` elements for path `p` in a context, in
first-encountered order. -/
def outputsOf (context : List ContextElem) (p : String) : List String :=
  context.filterMap (fun e =>
    match e with
    | .Built q o => if q = p then some o else none
    | _ => none)

/-- The context elements a grouped `ContextInfo` record stands for. -/
def elemsOfInfo (p : String) (i : ContextInfo) : List ContextElem :=
  (if i.path then [ContextElem.Opaque p] else []) ++
  (if i.allOutputs then [ContextElem.DrvDeep p] else []) ++
  i.outputs.map (fun o => ContextElem.Built p o)

/-! Basic computation lemmas for `Except` and `insertElem`. -/

theorem exOkBind {α β : Type} (a : α) (f : α → Except EvalErr β) :
    (Except.ok a >>= f : Except EvalErr β) = f a := rfl

theorem exErrBind {α β : Type} (e : EvalErr) (f : α → Except EvalErr β) :
    (Except.error e >>= f : Except EvalErr β) = Except.error e := rfl

theorem exMapOk {α β : Type} (a : α) (f : α → β) :
    (Except.map f (Except.ok a) : Except EvalErr β) = Except.ok (f a) := rfl

theorem exMapErr {α β : Type} (e : EvalErr) (f : α → β) :
    (Except.map f (Except.error e) : Except EvalErr β) = Except.error e := rfl

theorem exPure {α : Type} (a : α) :
    (pure a : Except EvalErr α) = Except.ok a := rfl

theorem mem_insertElem (c : List ContextElem) (x e : ContextElem) :
    e ∈ insertElem c x ↔ e ∈ c ∨ e = x := by
  unfold insertElem
  by_cases h : x ∈ c
  · simp only [if_pos h]
    constructor
    · exact fun he => Or.inl he
    · rintro (he | rfl)
      · exact he
      · exact h
  · simp [if_neg h]

theorem nodup_insertElem (c : List ContextElem) (x : ContextElem)
    (h : c.Nodup) : (insertElem c x).Nodup := by
  unfold insertElem
  by_cases hx : x ∈ c
  · simpa [if_pos hx] using h
  · simp only [if_neg hx]
    simpa [List.nodup_append, h] using hx

theorem mem_foldl_insertElem (es : List ContextElem) :
    ∀ (c : List ContextElem) (e : ContextElem),
      e ∈ es.foldl insertElem c ↔ e ∈ c ∨ e ∈ es := by
  induction es with
  | nil => intro c e; simp
  | cons x rest ih =>
      intro c e
      simp only [List.foldl_cons, ih, mem_insertElem, List.mem_cons]
      tauto

theorem nodup_foldl_insertElem (es : List ContextElem) :
    ∀ (c : List ContextElem), c.Nodup → (es.foldl insertElem c).Nodup := by
  induction es with
  | nil => intro c h; simpa using h
  | cons x rest ih =>
      intro c h
      exact ih _ (nodup_insertElem c x h)

/-! Normalization: each stage of `appendContext` equals inserting its newly
constructed elements into the incoming context. -/

theorem addPathAttr_norm (binds : List (String × Value)) (name : String)
    (ctx : List ContextElem) :
    addPathAttr binds name ctx =
      (pathAttrElems binds name).map (fun es => es.foldl insertElem ctx) := by
  unfold addPathAttr pathAttrElems
  cases attrsFind binds "path" with
  | none => rfl
  | some pv =>
      cases pv with
      | str t c => rfl
      | bool b => cases b <;> rfl
      | path p => rfl
      | list items => rfl
      | attrs bs => rfl

theorem addAllOutputsAttr_norm (binds : List (String × Value)) (name : String)
    (ctx : List ContextElem) :
    addAllOutputsAttr binds name ctx =
      (allOutputsAttrElems binds name).map (fun es => es.foldl insertElem ctx) := by
  unfold addAllOutputsAttr allOutputsAttrElems
  cases attrsFind binds "allOutputs" with
  | none => rfl
  | some av =>
      cases av with
      | str t c => rfl
      | bool b =>
          cases b with
          | true => cases hd : isDerivation name <;> rfl
          | false => rfl
      | path p => rfl
      | list items => rfl
      | attrs bs => rfl

theorem addOutputs_norm (name : String) (items : List Value) :
    ∀ ctx : List ContextElem,
      addOutputs name items ctx =
        (outputsElems name items).map (fun es => es.foldl insertElem ctx) := by
  induction items with
  | nil => intro ctx; rfl
  | cons elem rest ih =>
      intro ctx
      unfold addOutputs outputsElems
      cases hf : forceStringNoCtx elem with
      | error e => simp [exErrBind, exMapErr]
      | ok o =>
          simp only [exOkBind, ih]
          cases ho : outputsElems name rest with
          | error e => simp [exErrBind, exMapErr]
          | ok es => simp [exOkBind, exMapOk, List.foldl_cons]

theorem addOutputsAttr_norm (binds : List (String × Value)) (name : String)
    (ctx : List ContextElem) :
    addOutputsAttr binds name ctx =
      (outputsAttrElems binds name).map (fun es => es.foldl insertElem ctx) := by
  unfold addOutputsAttr outputsAttrElems
  cases attrsFind binds "outputs" with
  | none => rfl
  | some ov =>
      cases ov with
      | str t c => rfl
      | bool b => rfl
      | path p => rfl
      | attrs bs => rfl
      | list items =>
          simp only [forceList, exOkBind]
          cases hcond : items.isEmpty = false && isDerivation name = false with
          | true => simp [hcond, exMapErr]
          | false => simp [hcond, addOutputs_norm]

theorem appendContextEntry_norm (isSP : String → Bool) (ctx : List ContextElem)
    (name : String) (val : Value) :
    appendContextEntry isSP ctx name val =
      (entryElems isSP name val).map (fun es => es.foldl insertElem ctx) := by
  unfold appendContextEntry entryElems
  cases hsp : isSP name with
  | false => rfl
  | true =>
      cases val with
      | str t c => rfl
      | bool b => rfl
      | path p => rfl
      | list items => rfl
      | attrs binds =>
          simp only [forceAttrs, exOkBind, addPathAttr_norm]
          cases h1 : pathAttrElems binds name with
          | error e => simp [exErrBind, exMapErr]
          | ok es1 =>
              simp only [exMapOk, exOkBind, addAllOutputsAttr_norm]
              cases h2 : allOutputsAttrElems binds name with
              | error e => simp [exErrBind, exMapErr]
              | ok es2 =>
                  simp only [exMapOk, exOkBind, addOutputsAttr_norm]
                  cases h3 : outputsAttrElems binds name with
                  | error e => simp [exErrBind, exMapErr]
                  | ok es3 =>
                      simp [exMapOk, exOkBind, List.foldl_append]

theorem appendEntries_norm (isSP : String → Bool) (binds : List (String × Value)) :
    ∀ ctx : List ContextElem,
      appendEntries isSP binds ctx =
        (entriesElems isSP binds).map (fun es => es.foldl insertElem ctx) := by
  induction binds with
  | nil => intro ctx; rfl
  | cons kv rest ih =>
      intro ctx
      obtain ⟨name, val⟩ := kv
      unfold appendEntries entriesElems
      simp only [appendContextEntry_norm]
      cases h1 : entryElems isSP name val with
      | error e => simp [exErrBind, exMapErr]
      | ok es =>
          simp only [exMapOk, exOkBind, ih]
          cases h2 : entriesElems isSP rest with
          | error e => simp [exErrBind, exMapErr]
          | ok esRest => simp [exMapOk, exOkBind, List.foldl_append]

theorem prim_appendContext_norm (isSP : String → Bool) (t : String)
    (c : List ContextElem) (arg1 : Value) :
    prim_appendContext isSP (Value.str t c) arg1 =
      forceAttrs arg1 >>= fun binds =>
        (entriesElems isSP binds).map (fun es => Value.str t (es.foldl insertElem c)) := by
  unfold prim_appendContext
  simp only [forceString, exOkBind]
  cases hb : forceAttrs arg1 with
  | error e => simp [exErrBind]
  | ok binds =>
      simp only [exOkBind, appendEntries_norm]
      cases he : entriesElems isSP binds with
      | error e => simp [exErrBind, exMapErr]
      | ok es => simp [exMapOk, exOkBind]

/-! Characterization of `prim_getContext`'s grouping map. -/

theorem lookupInfo_updateInfo (m : List (String × ContextInfo)) (key p : String)
    (f : ContextInfo → ContextInfo) :
    lookupInfo (updateInfo m key f) p =
      if p = key then some (f ((lookupInfo m key).getD {})) else lookupInfo m p := by
  induction m with
  | nil =>
      by_cases h : p = key
      · subst h; simp [updateInfo, lookupInfo]
      · simp [updateInfo, lookupInfo, h, Ne.symm h]
  | cons kv rest ih =>
      obtain ⟨k, v⟩ := kv
      by_cases hk : k = key
      · subst hk
        by_cases hp : p = k
        · subst hp; simp [updateInfo, lookupInfo]
        · simp [updateInfo, lookupInfo, hp, Ne.symm hp]
      · by_cases hp : p = key
        · subst hp
          have hkp : ¬(k = p) := fun hh => hk (hh.trans rfl) |>.elim
          simp [updateInfo, lookupInfo, hk, hkp, ih, Ne.symm hkp]
        · by_cases hkp : k = p
          · subst hkp; simp [updateInfo, lookupInfo, hk, hp, ih]
          · simp [updateInfo, lookupInfo, hk, hp, hkp, ih]

theorem getD_foldl_updateInfo (C : List ContextElem) :
    ∀ (m : List (String × ContextInfo)) (p : String),
      ((lookupInfo (C.foldl (fun m e => updateInfo m e.storePath (elemUpdate e)) m) p).getD {}) =
        { path := ((lookupInfo m p).getD {}).path || decide (ContextElem.Opaque p ∈ C),
          allOutputs := ((lookupInfo m p).getD {}).allOutputs || decide (ContextElem.DrvDeep p ∈ C),
          outputs := ((lookupInfo m p).getD {}).outputs ++ outputsOf C p } := by
  induction C with
  | nil => intro m p; simp [outputsOf]
  | cons e C ih =>
      intro m p
      simp only [List.foldl_cons, ih, lookupInfo_updateInfo]
      cases e with
      | Opaque r =>
          simp only [ContextElem.storePath, elemUpdate]
          by_cases hp : p = r
          · subst hp
            simp [outputsOf, List.filterMap_cons, List.mem_cons]
          · simp [hp, Ne.symm hp, outputsOf, List.filterMap_cons, List.mem_cons]
      | Built q o =>
          simp only [ContextElem.storePath, elemUpdate]
          by_cases hp : p = q
          · subst hp
            simp [outputsOf, List.filterMap_cons, List.mem_cons]
          · simp [hp, Ne.symm hp, outputsOf, List.filterMap_cons, List.mem_cons]
      | DrvDeep r =>
          simp only [ContextElem.storePath, elemUpdate]
          by_cases hp : p = r
          · subst hp
            simp [outputsOf, List.filterMap_cons, List.mem_cons]
          · simp [hp, Ne.symm hp, outputsOf, List.filterMap_cons, List.mem_cons]

theorem lookupInfo_foldl_none (C : List ContextElem) :
    ∀ (m : List (String × ContextInfo)) (p : String),
      lookupInfo (C.foldl (fun m e => updateInfo m e.storePath (elemUpdate e)) m) p = none ↔
        lookupInfo m p = none ∧ ∀ e ∈ C, e.storePath ≠ p := by
  induction C with
  | nil => intro m p; simp
  | cons e C ih =>
      intro m p
      simp only [List.foldl_cons, ih, lookupInfo_updateInfo]
      by_cases hp : p = e.storePath
      · simp [hp]
      · simp only [if_neg hp, List.forall_mem_cons]
        constructor
        · rintro ⟨h1, h2⟩
          exact ⟨h1, fun hh => hp hh.symm, h2⟩
        · rintro ⟨h1, _, h2⟩
          exact ⟨h1, h2⟩

theorem getD_contextInfos (C : List ContextElem) (p : String) :
    ((lookupInfo (contextInfos C) p).getD {}) =
      { path := decide (ContextElem.Opaque p ∈ C),
        allOutputs := decide (ContextElem.DrvDeep p ∈ C),
        outputs := outputsOf C p } := by
  have h := getD_foldl_updateInfo C [] p
  simpa [contextInfos, lookupInfo] using h

theorem lookupInfo_contextInfos_none (C : List ContextElem) (p : String) :
    lookupInfo (contextInfos C) p = none ↔ ∀ e ∈ C, e.storePath ≠ p := by
  have h := lookupInfo_foldl_none C [] p
  simpa [contextInfos, lookupInfo] using h

theorem keys_updateInfo (m : List (String × ContextInfo)) (key : String)
    (f : ContextInfo → ContextInfo) :
    (updateInfo m key f).map Prod.fst =
      if key ∈ m.map Prod.fst then m.map Prod.fst else m.map Prod.fst ++ [key] := by
  induction m with
  | nil => simp [updateInfo]
  | cons kv rest ih =>
      obtain ⟨k, v⟩ := kv
      by_cases hk : k = key
      · subst hk; simp [updateInfo]
      · simp only [updateInfo, if_neg hk, List.map_cons, ih, List.mem_cons]
        by_cases hmem : key ∈ rest.map Prod.fst
        · simp [hmem, Ne.symm hk]
        · simp [hmem, Ne.symm hk]

theorem keys_updateInfo_nodup (m : List (String × ContextInfo)) (key : String)
    (f : ContextInfo → ContextInfo) (h : (m.map Prod.fst).Nodup) :
    ((updateInfo m key f).map Prod.fst).Nodup := by
  rw [keys_updateInfo]
  by_cases hmem : key ∈ m.map Prod.fst
  · simpa [hmem] using h
  · simp only [if_neg hmem]
    simpa [List.nodup_append, h] using hmem

theorem keys_contextInfos_nodup (C : List ContextElem) :
    ((contextInfos C).map Prod.fst).Nodup := by
  unfold contextInfos
  have h : ∀ (m : List (String × ContextInfo)), (m.map Prod.fst).Nodup →
      ((C.foldl (fun m e => updateInfo m e.storePath (elemUpdate e)) m).map Prod.fst).Nodup := by
    induction C with
    | nil => intro m hm; simpa using hm
    | cons e C ih =>
        intro m hm
        exact ih _ (keys_updateInfo_nodup m e.storePath (elemUpdate e) hm)
  exact h [] (by simp)

theorem mem_of_lookupInfo (m : List (String × ContextInfo)) (p : String)
    (i : ContextInfo) (h : lookupInfo m p = some i) : (p, i) ∈ m := by
  induction m with
  | nil => simp [lookupInfo] at h
  | cons kv rest ih =>
      obtain ⟨k, v⟩ := kv
      by_cases hk : k = p
      · subst hk
        simp [lookupInfo] at h
        subst h
        exact List.mem_cons_self _ _
      · simp [lookupInfo, hk] at h
        exact List.mem_cons_of_mem _ (ih h)

theorem lookupInfo_isSome_of_mem (m : List (String × ContextInfo)) (p : String)
    (i : ContextInfo) (h : (p, i) ∈ m) : ∃ j, lookupInfo m p = some j := by
  induction m with
  | nil => simp at h
  | cons kv rest ih =>
      obtain ⟨k, v⟩ := kv
      by_cases hk : k = p
      · exact ⟨v, by simp [lookupInfo, hk]⟩
      · rcases List.mem_cons.mp h with hh | hh
        · exact absurd (congrArg Prod.fst hh).symm hk
        · simpa [lookupInfo, hk] using ih hh

theorem lookupInfo_of_mem_nodup (m : List (String × ContextInfo)) (p : String)
    (i : ContextInfo) (hnd : (m.map Prod.fst).Nodup) (h : (p, i) ∈ m) :
    lookupInfo m p = some i := by
  induction m with
  | nil => simp at h
  | cons kv rest ih =>
      obtain ⟨k, v⟩ := kv
      simp only [List.map_cons, List.nodup_cons] at hnd
      rcases List.mem_cons.mp h with hh | hh
      · rw [← hh]; simp [lookupInfo]
      · have hk : k ≠ p := by
          intro hkp
          subst hkp
          exact hnd.1 (List.mem_map_of_mem Prod.fst hh)
        simpa [lookupInfo, hk] using ih hnd.2 hh

theorem mem_outputsOf (C : List ContextElem) (p : String) (o : String) :
    o ∈ outputsOf C p ↔ ContextElem.Built p o ∈ C := by
  unfold outputsOf
  rw [List.mem_filterMap]
  constructor
  · rintro ⟨e, he, hf⟩
    cases e with
    | Opaque r => simp at hf
    | DrvDeep r => simp at hf
    | Built q o' =>
        by_cases hq : q = p
        · subst hq
          simp at hf
          subst hf
          exact he
        · simp [hq] at hf
  · intro h
    exact ⟨ContextElem.Built p o, h, by simp⟩

/-! `appendContext` applied to one grouped record of `getContext`'s
output. -/

theorem attrsFind_infoToAttrsBinds_path (i : ContextInfo) :
    attrsFind (infoToAttrsBinds i) "path" =
      if i.path then some (Value.bool true) else none := by
  unfold infoToAttrsBinds
  cases hp : i.path <;> cases ha : i.allOutputs <;> cases ho : i.outputs.isEmpty <;>
    simp +decide [attrsFind]

theorem attrsFind_infoToAttrsBinds_allOutputs (i : ContextInfo) :
    attrsFind (infoToAttrsBinds i) "allOutputs" =
      if i.allOutputs then some (Value.bool true) else none := by
  unfold infoToAttrsBinds
  cases hp : i.path <;> cases ha : i.allOutputs <;> cases ho : i.outputs.isEmpty <;>
    simp +decide [attrsFind]

theorem attrsFind_infoToAttrsBinds_outputs (i : ContextInfo) :
    attrsFind (infoToAttrsBinds i) "outputs" =
      if i.outputs.isEmpty then none
      else some (Value.list (i.outputs.map (fun o => Value.str o []))) := by
  unfold infoToAttrsBinds
  cases hp : i.path <;> cases ha : i.allOutputs <;> cases ho : i.outputs.isEmpty <;>
    simp +decide [attrsFind]

theorem outputsElems_strs (name : String) (os : List String) :
    outputsElems name (os.map (fun o => Value.str o [])) =
      Except.ok (os.map (fun o => ContextElem.Built name o)) := by
  induction os with
  | nil => rfl
  | cons o os ih => simp [outputsElems, forceStringNoCtx, ih, exOkBind]

theorem pathAttrElems_info (i : ContextInfo) (p : String) :
    pathAttrElems (infoToAttrsBinds i) p =
      Except.ok (if i.path then [ContextElem.Opaque p] else []) := by
  unfold pathAttrElems
  rw [attrsFind_infoToAttrsBinds_path]
  cases hp : i.path <;> simp [forceBool, exOkBind, exPure]

theorem allOutputsAttrElems_info (i : ContextInfo) (p : String)
    (hall : i.allOutputs = true → isDerivation p = true) :
    allOutputsAttrElems (infoToAttrsBinds i) p =
      Except.ok (if i.allOutputs then [ContextElem.DrvDeep p] else []) := by
  unfold allOutputsAttrElems
  rw [attrsFind_infoToAttrsBinds_allOutputs]
  cases ha : i.allOutputs with
  | false => simp
  | true => simp [forceBool, exOkBind, exPure, hall ha]

theorem outputsAttrElems_info (i : ContextInfo) (p : String)
    (houts : i.outputs.isEmpty = false → isDerivation p = true) :
    outputsAttrElems (infoToAttrsBinds i) p =
      Except.ok (i.outputs.map (fun o => ContextElem.Built p o)) := by
  unfold outputsAttrElems
  rw [attrsFind_infoToAttrsBinds_outputs]
  cases houtl : i.outputs with
  | nil => simp
  | cons o os =>
      have hd : isDerivation p = true := by
        apply houts; rw [houtl]; rfl
      simp [forceList, exOkBind, hd, outputsElems_strs, outputsElems, forceStringNoCtx]

theorem entryElems_infoToAttrs (isSP : String → Bool) (p : String) (i : ContextInfo)
    (hsp : isSP p = true)
    (hall : i.allOutputs = true → isDerivation p = true)
    (houts : i.outputs.isEmpty = false → isDerivation p = true) :
    entryElems isSP p (infoToAttrs i) = Except.ok (elemsOfInfo p i) := by
  unfold entryElems
  simp [hsp, infoToAttrs, forceAttrs, exOkBind, pathAttrElems_info,
        allOutputsAttrElems_info i p hall, outputsAttrElems_info i p houts,
        elemsOfInfo]

theorem entriesElems_getContext (isSP : String → Bool)
    (infos : List (String × ContextInfo))
    (h : ∀ kv ∈ infos, isSP kv.1 = true ∧
          (kv.2.allOutputs = true → isDerivation kv.1 = true) ∧
          (kv.2.outputs.isEmpty = false → isDerivation kv.1 = true)) :
    entriesElems isSP (infos.map (fun kv => (kv.1, infoToAttrs kv.2))) =
      Except.ok ((infos.map (fun kv => elemsOfInfo kv.1 kv.2)).flatten) := by
  induction infos with
  | nil => rfl
  | cons kv rest ih =>
      obtain ⟨p, i⟩ := kv
      obtain ⟨hsp, hall, houts⟩ := h (p, i) (List.mem_cons_self _ _)
      have hrest := ih (fun kv hkv => h kv (List.mem_cons_of_mem _ hkv))
      simp [entriesElems, entryElems_infoToAttrs isSP p i hsp hall houts,
            hrest, exOkBind]

theorem contextInfos_mem_char (C : List ContextElem) (p : String) (i : ContextInfo)
    (h : (p, i) ∈ contextInfos C) :
    i = { path := decide (ContextElem.Opaque p ∈ C),
          allOutputs := decide (ContextElem.DrvDeep p ∈ C),
          outputs := outputsOf C p } ∧ ∃ e ∈ C, e.storePath = p := by
  have hl := lookupInfo_of_mem_nodup _ p i (keys_contextInfos_nodup C) h
  constructor
  · have hg := getD_contextInfos C p
    rw [hl] at hg
    simpa using hg
  · by_contra hnone
    push_neg at hnone
    have hn : lookupInfo (contextInfos C) p = none :=
      (lookupInfo_contextInfos_none C p).mpr hnone
    rw [hl] at hn
    cases hn

theorem contextInfos_mem_of_elem (C : List ContextElem) (e : ContextElem) (h : e ∈ C) :
    ((e.storePath,
      { path := decide (ContextElem.Opaque e.storePath ∈ C),
        allOutputs := decide (ContextElem.DrvDeep e.storePath ∈ C),
        outputs := outputsOf C e.storePath }) : String × ContextInfo) ∈ contextInfos C := by
  cases hl : lookupInfo (contextInfos C) e.storePath with
  | none =>
      exact absurd rfl ((lookupInfo_contextInfos_none C e.storePath).mp hl e h)
  | some j =>
      have hj := getD_contextInfos C e.storePath
      rw [hl] at hj
      simp only [Option.getD_some] at hj
      rw [← hj]
      exact mem_of_lookupInfo _ _ _ hl

/-! The claims. -/

/-- C7: `hasContext` requires its argument to already be a string (failing
with a TypeError otherwise, with no silent coercion) and, for every string
`s`, returns `true` if and only if `s`'s context set is non-empty. -/
theorem hasContext_spec :
    (∀ (t : String) (C : List ContextElem),
      prim_hasContext (Value.str t C) = Except.ok (Value.bool (!C.isEmpty))) ∧
    (∀ (t : String) (C : List ContextElem),
      prim_hasContext (Value.str t C) = Except.ok (Value.bool true) ↔ C ≠ []) ∧
    (∀ v : Value, (∀ t C, v ≠ Value.str t C) →
      prim_hasContext v = Except.error EvalErr.typeError) := by
  refine ⟨fun t C => rfl, fun t C => ?_, fun v hv => ?_⟩
  · cases C with
    | nil =>
        constructor
        · intro h
          have : (Value.bool false) = (Value.bool true) := by
            have hh := h
            rw [show prim_hasContext (Value.str t []) =
                  Except.ok (Value.bool false) from rfl] at hh
            exact Except.ok.inj hh
          cases this
        · intro h; exact absurd rfl h
    | cons e rest =>
        constructor
        · intro _; exact List.cons_ne_nil e rest
        · intro _; rfl
  · cases v with
    | str t C => exact absurd rfl (hv t C)
    | bool b => rfl
    | path p => rfl
    | list items => rfl
    | attrs binds => rfl

/-- C9: for every value `s` coercible to a string,
`unsafeDiscardStringContext` returns a string whose context is empty and
whose text is identical to the coerced text of `s`. -/
theorem discardStringContext_spec (v : Value) (t : String) (C : List ContextElem)
    (h : coerceToString v = Except.ok (t, C)) :
    prim_unsafeDiscardStringContext v = Except.ok (Value.str t []) := by
  unfold prim_unsafeDiscardStringContext
  rw [h]
  rfl

/-- Witness for C9 at a concrete coercible (path) value. -/
theorem discardStringContext_spec_witness :
    coerceToString (Value.path "/nix/store/p") =
        Except.ok ("/nix/store/p", [ContextElem.Opaque "/nix/store/p"]) ∧
    prim_unsafeDiscardStringContext (Value.path "/nix/store/p") =
        Except.ok (Value.str "/nix/store/p" []) :=
  ⟨rfl, discardStringContext_spec (Value.path "/nix/store/p") "/nix/store/p"
    [ContextElem.Opaque "/nix/store/p"] rfl⟩

/-- C3 counterexample: `appendContext` applied to a coercible non-string
value (a path) and the empty mapping fails with a TypeError instead of
succeeding with the coerced text. -/
theorem appendContext_coerce_cex :
    coerceToString (Value.path "/nix/store/x") =
        Except.ok ("/nix/store/x", [ContextElem.Opaque "/nix/store/x"]) ∧
    prim_appendContext (fun _ => true) (Value.path "/nix/store/x") (Value.attrs []) =
      Except.error EvalErr.typeError :=
  ⟨rfl, rfl⟩

/-- C3 amended: `appendContext` requires its first argument to already be a
string (strict forcing, not coercion): a coercible non-string value such as
a path fails with a TypeError, while for an already-string first argument
and the empty mapping it succeeds and returns the string unchanged. -/
theorem appendContext_forces_string (isSP : String → Bool) :
    (∀ p, prim_appendContext isSP (Value.path p) (Value.attrs []) =
        Except.error EvalErr.typeError) ∧
    (∀ (t : String) (C : List ContextElem),
      prim_appendContext isSP (Value.str t C) (Value.attrs []) =
        Except.ok (Value.str t C)) :=
  ⟨fun _ => rfl, fun _ _ => rfl⟩

/-- C4: for every coercible value whose context contains a DrvDeep element
for a path `P`, `unsafeDiscardOutputDependency` returns a string with the
same text whose context has no DrvDeep element for `P` but does contain an
Opaque element with path `P`, and every Built and Opaque element of the
original context is present unchanged. -/
theorem discardOutputDependency_spec (v : Value) (t : String)
    (C : List ContextElem) (P : String)
    (hco : coerceToString v = Except.ok (t, C))
    (hP : ContextElem.DrvDeep P ∈ C) :
    ∃ C2, prim_unsafeDiscardOutputDependency v = Except.ok (Value.str t C2) ∧
      ContextElem.DrvDeep P ∉ C2 ∧
      ContextElem.Opaque P ∈ C2 ∧
      (∀ p o, ContextElem.Built p o ∈ C → ContextElem.Built p o ∈ C2) ∧
      (∀ p, ContextElem.Opaque p ∈ C → ContextElem.Opaque p ∈ C2) := by
  refine ⟨(C.map discardDep).foldl insertElem [], ?_, ?_, ?_, ?_, ?_⟩
  · unfold prim_unsafeDiscardOutputDependency
    rw [hco, exOkBind, List.foldl_map]
    rfl
  · intro hmem
    rw [mem_foldl_insertElem] at hmem
    rcases hmem with h0 | h0
    · cases h0
    · rcases List.mem_map.mp h0 with ⟨e, _, hde⟩
      cases e <;> simp [discardDep] at hde
  · rw [mem_foldl_insertElem]
    exact Or.inr (List.mem_map.mpr ⟨ContextElem.DrvDeep P, hP, rfl⟩)
  · intro p o h
    rw [mem_foldl_insertElem]
    exact Or.inr (List.mem_map.mpr ⟨ContextElem.Built p o, h, rfl⟩)
  · intro p h
    rw [mem_foldl_insertElem]
    exact Or.inr (List.mem_map.mpr ⟨ContextElem.Opaque p, h, rfl⟩)

/-- Witness for C4 at a concrete string carrying one element of each
variant. -/
theorem discardOutputDependency_spec_witness :
    coerceToString (Value.str "x"
        [ContextElem.DrvDeep "/nix/store/d.drv",
         ContextElem.Built "/nix/store/d.drv" "out",
         ContextElem.Opaque "/nix/store/q"]) =
      Except.ok ("x",
        [ContextElem.DrvDeep "/nix/store/d.drv",
         ContextElem.Built "/nix/store/d.drv" "out",
         ContextElem.Opaque "/nix/store/q"]) ∧
    ContextElem.DrvDeep "/nix/store/d.drv" ∈
      [ContextElem.DrvDeep "/nix/store/d.drv",
       ContextElem.Built "/nix/store/d.drv" "out",
       ContextElem.Opaque "/nix/store/q"] ∧
    ∃ C2, prim_unsafeDiscardOutputDependency (Value.str "x"
        [ContextElem.DrvDeep "/nix/store/d.drv",
         ContextElem.Built "/nix/store/d.drv" "out",
         ContextElem.Opaque "/nix/store/q"]) = Except.ok (Value.str "x" C2) ∧
      ContextElem.DrvDeep "/nix/store/d.drv" ∉ C2 ∧
      ContextElem.Opaque "/nix/store/d.drv" ∈ C2 ∧
      (∀ p o, ContextElem.Built p o ∈
          [ContextElem.DrvDeep "/nix/store/d.drv",
           ContextElem.Built "/nix/store/d.drv" "out",
           ContextElem.Opaque "/nix/store/q"] → ContextElem.Built p o ∈ C2) ∧
      (∀ p, ContextElem.Opaque p ∈
          [ContextElem.DrvDeep "/nix/store/d.drv",
           ContextElem.Built "/nix/store/d.drv" "out",
           ContextElem.Opaque "/nix/store/q"] → ContextElem.Opaque p ∈ C2) :=
  ⟨rfl, by decide,
   discardOutputDependency_spec _ "x" _ "/nix/store/d.drv" rfl (by decide)⟩

/-- C10: for a valid store-path key that is not a derivation, an entry with
`allOutputs = false`, or `outputs = []`, or `path = false` makes
`appendContext` succeed without the "not a derivation" error and
contributes no context element. -/
theorem appendContext_inertFields (isSP : String → Bool) (k t : String)
    (C : List ContextElem) (hk : isSP k = true) (hkd : isDerivation k = false) :
    prim_appendContext isSP (Value.str t C)
        (Value.attrs [(k, Value.attrs [("allOutputs", Value.bool false)])]) =
      Except.ok (Value.str t C) ∧
    prim_appendContext isSP (Value.str t C)
        (Value.attrs [(k, Value.attrs [("outputs", Value.list [])])]) =
      Except.ok (Value.str t C) ∧
    prim_appendContext isSP (Value.str t C)
        (Value.attrs [(k, Value.attrs [("path", Value.bool false)])]) =
      Except.ok (Value.str t C) := by
  refine ⟨?_, ?_, ?_⟩ <;>
    simp +decide [prim_appendContext, forceString, forceAttrs, exOkBind, exPure,
      appendEntries, appendContextEntry, hk, addPathAttr, addAllOutputsAttr,
      addOutputsAttr, attrsFind, forceBool, forceList, addOutputs]

/-- Witness for C10 at a concrete non-derivation store path. -/
theorem appendContext_inertFields_witness :
    (fun _ => true : String → Bool) "/nix/store/aaa-x" = true ∧
    isDerivation "/nix/store/aaa-x" = false ∧
    (prim_appendContext (fun _ => true) (Value.str "t" [])
        (Value.attrs [("/nix/store/aaa-x",
          Value.attrs [("allOutputs", Value.bool false)])]) =
      Except.ok (Value.str "t" []) ∧
    prim_appendContext (fun _ => true) (Value.str "t" [])
        (Value.attrs [("/nix/store/aaa-x",
          Value.attrs [("outputs", Value.list [])])]) =
      Except.ok (Value.str "t" []) ∧
    prim_appendContext (fun _ => true) (Value.str "t" [])
        (Value.attrs [("/nix/store/aaa-x",
          Value.attrs [("path", Value.bool false)])]) =
      Except.ok (Value.str "t" [])) :=
  ⟨rfl, by decide,
   appendContext_inertFields (fun _ => true) "/nix/store/aaa-x" "t" [] rfl (by decide)⟩

theorem appendEntries_err_of_badKey (isSP : String → Bool) (k : String) (v : Value)
    (hk : isSP k = false) :
    ∀ (binds : List (String × Value)), (k, v) ∈ binds →
      ∀ ctx, ∃ err, appendEntries isSP binds ctx = Except.error err := by
  intro binds
  induction binds with
  | nil => intro hmem; cases hmem
  | cons kv rest ih =>
      obtain ⟨name, val⟩ := kv
      intro hmem ctx
      rcases List.mem_cons.mp hmem with heq | hmem'
      · have h1 : name = k := (congrArg Prod.fst heq).symm
        subst h1
        exact ⟨EvalErr.contextKeyNotStorePath name,
          by simp [appendEntries, appendContextEntry, hk, exErrBind]⟩
      · cases he : appendContextEntry isSP ctx name val with
        | error err => exact ⟨err, by simp [appendEntries, he, exErrBind]⟩
        | ok ctx2 =>
            obtain ⟨err, herr⟩ := ih hmem' ctx2
            exact ⟨err, by simp [appendEntries, he, exOkBind, herr]⟩

/-- C8: a mapping key that does not parse as a store path makes
`appendContext` fail; a single-entry mapping fails with exactly the
"context key is not a store path" EvalError, whatever the entry's value is
(the key is parsed before any of the entry's fields are processed). -/
theorem appendContext_badKey (isSP : String → Bool) (t : String)
    (C : List ContextElem) :
    (∀ (binds : List (String × Value)) (k : String) (v : Value),
      (k, v) ∈ binds → isSP k = false →
      ∃ err, prim_appendContext isSP (Value.str t C) (Value.attrs binds) =
        Except.error err) ∧
    (∀ (k : String) (v : Value), isSP k = false →
      prim_appendContext isSP (Value.str t C) (Value.attrs [(k, v)]) =
        Except.error (EvalErr.contextKeyNotStorePath k)) := by
  constructor
  · intro binds k v hmem hk
    obtain ⟨err, herr⟩ := appendEntries_err_of_badKey isSP k v hk binds hmem C
    exact ⟨err, by simp [prim_appendContext, forceString, forceAttrs, exOkBind, herr]⟩
  · intro k v hk
    simp [prim_appendContext, forceString, forceAttrs, exOkBind, exErrBind,
      appendEntries, appendContextEntry, hk]

/-- C5: `allOutputs = true`, or a non-empty `outputs` list, for a
non-derivation store path fails with the "not a derivation" EvalError; for
the `outputs` list the check happens once, before any list element is
processed (a list of non-strings still reports "not a derivation"); and an
entry for a derivation path adds one Built element per listed output
name. -/
theorem appendContext_notADerivation (isSP : String → Bool) (k d t : String)
    (C : List ContextElem) (names : List String)
    (hk : isSP k = true) (hkd : isDerivation k = false)
    (hd : isSP d = true) (hdd : isDerivation d = true) :
    prim_appendContext isSP (Value.str t C)
        (Value.attrs [(k, Value.attrs [("allOutputs", Value.bool true)])]) =
      Except.error (EvalErr.notADerivation k) ∧
    (∀ items : List Value, items ≠ [] →
      prim_appendContext isSP (Value.str t C)
          (Value.attrs [(k, Value.attrs [("outputs", Value.list items)])]) =
        Except.error (EvalErr.notADerivation k)) ∧
    ∃ C2, prim_appendContext isSP (Value.str t C)
        (Value.attrs [(d, Value.attrs
            [("outputs", Value.list (names.map (fun o => Value.str o [])))])]) =
      Except.ok (Value.str t C2) ∧
      (∀ e, e ∈ C2 ↔ e ∈ C ∨ ∃ o ∈ names, e = ContextElem.Built d o) := by
  refine ⟨?_, ?_, ?_⟩
  · simp +decide [prim_appendContext, forceString, forceAttrs, exOkBind, exErrBind,
      appendEntries, appendContextEntry, hk, hkd, addPathAttr, addAllOutputsAttr,
      attrsFind, forceBool]
  · intro items hitems
    cases items with
    | nil => exact absurd rfl hitems
    | cons i rest =>
        simp +decide [prim_appendContext, forceString, forceAttrs, exOkBind, exErrBind,
          appendEntries, appendContextEntry, hk, hkd, addPathAttr, addAllOutputsAttr,
          addOutputsAttr, attrsFind, forceList]
  · refine ⟨(names.map (fun o => ContextElem.Built d o)).foldl insertElem C, ?_, ?_⟩
    · simp +decide [prim_appendContext, forceString, forceAttrs, exOkBind, exPure,
        appendEntries, appendContextEntry, hd, hdd, addPathAttr, addAllOutputsAttr,
        addOutputsAttr, attrsFind, forceList, addOutputs_norm, outputsElems_strs,
        exMapOk]
    · intro e
      rw [mem_foldl_insertElem]
      simp only [List.mem_map]
      constructor
      · rintro (he | ⟨o, ho, rfl⟩)
        · exact Or.inl he
        · exact Or.inr ⟨o, ho, rfl⟩
      · rintro (he | ⟨o, ho, rfl⟩)
        · exact Or.inl he
        · exact Or.inr ⟨o, ho, rfl⟩

/-- Witness for C5 at concrete non-derivation and derivation paths. -/
theorem appendContext_notADerivation_witness :
    (fun _ => true : String → Bool) "/nix/store/aaa-x" = true ∧
    isDerivation "/nix/store/aaa-x" = false ∧
    (fun _ => true : String → Bool) "/nix/store/bbb-y.drv" = true ∧
    isDerivation "/nix/store/bbb-y.drv" = true ∧
    (prim_appendContext (fun _ => true) (Value.str "t" [])
        (Value.attrs [("/nix/store/aaa-x",
          Value.attrs [("allOutputs", Value.bool true)])]) =
      Except.error (EvalErr.notADerivation "/nix/store/aaa-x") ∧
    (∀ items : List Value, items ≠ [] →
      prim_appendContext (fun _ => true) (Value.str "t" [])
          (Value.attrs [("/nix/store/aaa-x",
            Value.attrs [("outputs", Value.list items)])]) =
        Except.error (EvalErr.notADerivation "/nix/store/aaa-x")) ∧
    ∃ C2, prim_appendContext (fun _ => true) (Value.str "t" [])
        (Value.attrs [("/nix/store/bbb-y.drv", Value.attrs
            [("outputs", Value.list (["out"].map (fun o => Value.str o [])))])]) =
      Except.ok (Value.str "t" C2) ∧
      (∀ e, e ∈ C2 ↔ e ∈ ([] : List ContextElem) ∨
        ∃ o ∈ ["out"], e = ContextElem.Built "/nix/store/bbb-y.drv" o)) :=
  ⟨rfl, by decide, rfl, by decide,
   appendContext_notADerivation (fun _ => true) "/nix/store/aaa-x"
     "/nix/store/bbb-y.drv" "t" [] ["out"] rfl (by decide) rfl (by decide)⟩

/-- C6: whenever `appendContext` succeeds on a string, the result has the
original text, its context is a superset of the original context and equals
(as a set) the union of the original context with the newly constructed
elements (the context `appendContext` builds from an empty-context string
of the same text), and duplicates collapse (the result stays
duplicate-free). -/
theorem appendContext_union (isSP : String → Bool) (t : String)
    (C : List ContextElem) (m res : Value)
    (hres : prim_appendContext isSP (Value.str t C) m = Except.ok res) :
    ∃ C2 C0, res = Value.str t C2 ∧
      prim_appendContext isSP (Value.str t []) m = Except.ok (Value.str t C0) ∧
      (∀ e, e ∈ C2 ↔ e ∈ C ∨ e ∈ C0) ∧
      (∀ e ∈ C, e ∈ C2) ∧
      (C.Nodup → C2.Nodup) := by
  rw [prim_appendContext_norm] at hres
  cases hb : forceAttrs m with
  | error err => rw [hb] at hres; cases hres
  | ok binds =>
      rw [hb] at hres
      rw [exOkBind] at hres
      cases he : entriesElems isSP binds with
      | error err => rw [he] at hres; cases hres
      | ok es =>
          rw [he, exMapOk] at hres
          have hres2 : res = Value.str t (es.foldl insertElem C) :=
            (Except.ok.inj hres).symm
          refine ⟨es.foldl insertElem C, es.foldl insertElem [], hres2, ?_, ?_, ?_, ?_⟩
          · rw [prim_appendContext_norm, hb, exOkBind, he, exMapOk]
          · intro e
            rw [mem_foldl_insertElem, mem_foldl_insertElem]
            simp
          · intro e heC
            rw [mem_foldl_insertElem]
            exact Or.inl heC
          · intro hnd
            exact nodup_foldl_insertElem es C hnd

/-- Witness for C6 at a concrete successful call. -/
theorem appendContext_union_witness :
    prim_appendContext (fun _ => true)
        (Value.str "t" [ContextElem.Opaque "/nix/store/q"])
        (Value.attrs [("/nix/store/p", Value.attrs [("path", Value.bool true)])]) =
      Except.ok (Value.str "t"
        [ContextElem.Opaque "/nix/store/q", ContextElem.Opaque "/nix/store/p"]) ∧
    ∃ C2 C0,
      (Value.str "t" [ContextElem.Opaque "/nix/store/q",
          ContextElem.Opaque "/nix/store/p"] : Value) = Value.str "t" C2 ∧
      prim_appendContext (fun _ => true) (Value.str "t" [])
          (Value.attrs [("/nix/store/p", Value.attrs [("path", Value.bool true)])]) =
        Except.ok (Value.str "t" C0) ∧
      (∀ e, e ∈ C2 ↔ e ∈ [ContextElem.Opaque "/nix/store/q"] ∨ e ∈ C0) ∧
      (∀ e ∈ [ContextElem.Opaque "/nix/store/q"], e ∈ C2) ∧
      ([ContextElem.Opaque "/nix/store/q"].Nodup → C2.Nodup) :=
  ⟨rfl, appendContext_union (fun _ => true) "t" [ContextElem.Opaque "/nix/store/q"]
    (Value.attrs [("/nix/store/p", Value.attrs [("path", Value.bool true)])])
    (Value.str "t" [ContextElem.Opaque "/nix/store/q", ContextElem.Opaque "/nix/store/p"])
    rfl⟩

/-- C2: `getContext` returns one record per distinct store path occurring
in the string's context and no others; the record's `path` field is
present (as `true`) iff an Opaque element exists, `allOutputs` iff a
DrvDeep element exists, and `outputs` iff a Built element exists, listing
the output names of every Built element for that path in first-encountered
order; absent fields are omitted entirely (never present as `false` or as
an empty list).  Keys are printed store paths (printing is the identity in
this embedding). -/
theorem getContext_shape (t : String) (C : List ContextElem) :
    ∃ m : List (String × Value),
      prim_getContext (Value.str t C) = Except.ok (Value.attrs m) ∧
      (m.map Prod.fst).Nodup ∧
      (∀ p : String, (∃ r, (p, r) ∈ m) ↔ ∃ e ∈ C, e.storePath = p) ∧
      (∀ p r, (p, r) ∈ m → ∃ bs, r = Value.attrs bs ∧
        attrsFind bs "path" =
          (if ContextElem.Opaque p ∈ C then some (Value.bool true) else none) ∧
        attrsFind bs "allOutputs" =
          (if ContextElem.DrvDeep p ∈ C then some (Value.bool true) else none) ∧
        attrsFind bs "outputs" =
          (if outputsOf C p = [] then none
           else some (Value.list ((outputsOf C p).map (fun o => Value.str o []))))) := by
  refine ⟨(contextInfos C).map (fun kv => (kv.1, infoToAttrs kv.2)), ?_, ?_, ?_, ?_⟩
  · rfl
  · simpa [List.map_map, Function.comp_def] using keys_contextInfos_nodup C
  · intro p
    constructor
    · rintro ⟨r, hr⟩
      rcases List.mem_map.mp hr with ⟨⟨p', i⟩, hmem, heq⟩
      have hp : p' = p := congrArg Prod.fst heq
      subst hp
      exact (contextInfos_mem_char C p' i hmem).2
    · rintro ⟨e, he, hp⟩
      subst hp
      exact ⟨_, List.mem_map.mpr ⟨_, contextInfos_mem_of_elem C e he, rfl⟩⟩
  · intro p r hr
    rcases List.mem_map.mp hr with ⟨⟨p', i⟩, hmem, heq⟩
    have hp : p' = p := congrArg Prod.fst heq
    subst hp
    have hrr : r = infoToAttrs i := (congrArg Prod.snd heq).symm
    obtain ⟨hi, -⟩ := contextInfos_mem_char C p' i hmem
    refine ⟨infoToAttrsBinds i, by rw [hrr]; rfl, ?_, ?_, ?_⟩
    · rw [attrsFind_infoToAttrsBinds_path, hi]
      by_cases ho : ContextElem.Opaque p' ∈ C <;> simp [ho]
    · rw [attrsFind_infoToAttrsBinds_allOutputs, hi]
      by_cases ho : ContextElem.DrvDeep p' ∈ C <;> simp [ho]
    · rw [attrsFind_infoToAttrsBinds_outputs, hi]
      cases houtl : outputsOf C p' with
      | nil => simp [houtl]
      | cons o os => simp [houtl]

theorem mem_elemsOfInfo_char (C : List ContextElem) (p : String) (e : ContextElem)
    (h : e ∈ elemsOfInfo p
      { path := decide (ContextElem.Opaque p ∈ C),
        allOutputs := decide (ContextElem.DrvDeep p ∈ C),
        outputs := outputsOf C p }) :
    e ∈ C := by
  unfold elemsOfInfo at h
  rcases List.mem_append.mp h with h12 | h3
  · rcases List.mem_append.mp h12 with h1 | h2
    · by_cases hP : ContextElem.Opaque p ∈ C
      · simp [hP] at h1
        subst h1
        exact hP
      · simp [hP] at h1
    · by_cases hP : ContextElem.DrvDeep p ∈ C
      · simp [hP] at h2
        subst h2
        exact hP
      · simp [hP] at h2
  · rcases List.mem_map.mp h3 with ⟨o, ho, rfl⟩
    exact (mem_outputsOf C p o).mp ho

theorem mem_elemsOfInfo_of_mem (C : List ContextElem) (e : ContextElem) (h : e ∈ C) :
    e ∈ elemsOfInfo e.storePath
      { path := decide (ContextElem.Opaque e.storePath ∈ C),
        allOutputs := decide (ContextElem.DrvDeep e.storePath ∈ C),
        outputs := outputsOf C e.storePath } := by
  unfold elemsOfInfo
  cases e with
  | Opaque p =>
      refine List.mem_append.mpr (Or.inl (List.mem_append.mpr (Or.inl ?_)))
      simp [ContextElem.storePath, h]
  | DrvDeep p =>
      refine List.mem_append.mpr (Or.inl (List.mem_append.mpr (Or.inr ?_)))
      simp [ContextElem.storePath, h]
  | Built p o =>
      refine List.mem_append.mpr (Or.inr ?_)
      simp only [ContextElem.storePath]
      exact List.mem_map.mpr ⟨o, (mem_outputsOf C p o).mpr h, rfl⟩

/-- C1: for any valid context `C` in which every DrvDeep and Built
element's path is a derivation (and, being a printed store path, passes the
store-path syntax check), appending the structured mapping produced by
`getContext` on a string carrying `C` to a context-free string with the
same text reproduces a string whose context equals `C` as a set and whose
text is unchanged: `getContext` is a lossless encoding inverted by
`appendContext`. -/
theorem getContext_appendContext_roundTrip (isSP : String → Bool) (t : String)
    (C : List ContextElem)
    (hsp : ∀ e ∈ C, isSP e.storePath = true)
    (hdeep : ∀ p, ContextElem.DrvDeep p ∈ C → isDerivation p = true)
    (hbuilt : ∀ p o, ContextElem.Built p o ∈ C → isDerivation p = true) :
    ∃ m C2, prim_getContext (Value.str t C) = Except.ok m ∧
      prim_appendContext isSP (Value.str t []) m = Except.ok (Value.str t C2) ∧
      C2.Nodup ∧ (∀ e, e ∈ C2 ↔ e ∈ C) := by
  have hcond : ∀ kv ∈ contextInfos C, isSP kv.1 = true ∧
      (kv.2.allOutputs = true → isDerivation kv.1 = true) ∧
      (kv.2.outputs.isEmpty = false → isDerivation kv.1 = true) := by
    rintro ⟨p, i⟩ hmem
    obtain ⟨hi, e, he, hep⟩ := contextInfos_mem_char C p i hmem
    refine ⟨?_, ?_, ?_⟩
    · rw [← hep]
      exact hsp e he
    · intro hall
      rw [hi] at hall
      exact hdeep p (of_decide_eq_true hall)
    · intro houts
      rw [hi] at houts
      cases houtl : outputsOf C p with
      | nil =>
          rw [houtl] at houts
          cases houts
      | cons o os =>
          refine hbuilt p o ((mem_outputsOf C p o).mp ?_)
          rw [houtl]
          exact List.mem_cons_self _ _
  have hEntries := entriesElems_getContext isSP (contextInfos C) hcond
  refine ⟨Value.attrs ((contextInfos C).map (fun kv => (kv.1, infoToAttrs kv.2))),
    (((contextInfos C).map (fun kv => elemsOfInfo kv.1 kv.2)).flatten).foldl insertElem [],
    ?_, ?_, ?_, ?_⟩
  · rfl
  · rw [prim_appendContext_norm]
    show (Except.ok ((contextInfos C).map (fun kv => (kv.1, infoToAttrs kv.2))) >>= _) = _
    rw [exOkBind, hEntries, exMapOk]
  · exact nodup_foldl_insertElem _ [] List.nodup_nil
  · intro e
    rw [mem_foldl_insertElem]
    simp only [List.not_mem_nil, false_or]
    rw [List.mem_flatten]
    constructor
    · rintro ⟨l, hl, hel⟩
      rcases List.mem_map.mp hl with ⟨⟨p, i⟩, hmem, heq⟩
      obtain ⟨hi, -⟩ := contextInfos_mem_char C p i hmem
      rw [← heq, hi] at hel
      exact mem_elemsOfInfo_char C p e hel
    · intro he
      refine ⟨elemsOfInfo e.storePath
        { path := decide (ContextElem.Opaque e.storePath ∈ C),
          allOutputs := decide (ContextElem.DrvDeep e.storePath ∈ C),
          outputs := outputsOf C e.storePath }, ?_, mem_elemsOfInfo_of_mem C e he⟩
      exact List.mem_map.mpr ⟨_, contextInfos_mem_of_elem C e he, rfl⟩

/-- Witness for C1: the spec's concrete scenario, a context holding a
DrvDeep and a Built element for a `.drv` path and an Opaque element for a
plain path. -/
theorem getContext_appendContext_roundTrip_witness :
    (∀ e ∈ ([ContextElem.DrvDeep "/nix/store/arhvjaf6zmlyn8vh8fgn55rpwnxq0n7l-a.drv",
              ContextElem.Built "/nix/store/arhvjaf6zmlyn8vh8fgn55rpwnxq0n7l-a.drv" "out",
              ContextElem.Opaque "/nix/store/q"] : List ContextElem),
        (fun _ => true : String → Bool) e.storePath = true) ∧
    (∀ p, ContextElem.DrvDeep p ∈
        ([ContextElem.DrvDeep "/nix/store/arhvjaf6zmlyn8vh8fgn55rpwnxq0n7l-a.drv",
          ContextElem.Built "/nix/store/arhvjaf6zmlyn8vh8fgn55rpwnxq0n7l-a.drv" "out",
          ContextElem.Opaque "/nix/store/q"] : List ContextElem) →
        isDerivation p = true) ∧
    (∀ p o, ContextElem.Built p o ∈
        ([ContextElem.DrvDeep "/nix/store/arhvjaf6zmlyn8vh8fgn55rpwnxq0n7l-a.drv",
          ContextElem.Built "/nix/store/arhvjaf6zmlyn8vh8fgn55rpwnxq0n7l-a.drv" "out",
          ContextElem.Opaque "/nix/store/q"] : List ContextElem) →
        isDerivation p = true) ∧
    ∃ m C2, prim_getContext (Value.str ""
        [ContextElem.DrvDeep "/nix/store/arhvjaf6zmlyn8vh8fgn55rpwnxq0n7l-a.drv",
         ContextElem.Built "/nix/store/arhvjaf6zmlyn8vh8fgn55rpwnxq0n7l-a.drv" "out",
         ContextElem.Opaque "/nix/store/q"]) = Except.ok m ∧
      prim_appendContext (fun _ => true) (Value.str "" []) m =
        Except.ok (Value.str "" C2) ∧
      C2.Nodup ∧
      (∀ e, e ∈ C2 ↔ e ∈
        ([ContextElem.DrvDeep "/nix/store/arhvjaf6zmlyn8vh8fgn55rpwnxq0n7l-a.drv",
          ContextElem.Built "/nix/store/arhvjaf6zmlyn8vh8fgn55rpwnxq0n7l-a.drv" "out",
          ContextElem.Opaque "/nix/store/q"] : List ContextElem)) :=
  ⟨fun _ _ => rfl,
   by intro p h; simp at h; subst h; decide,
   by intro p o h; simp at h; obtain ⟨rfl, rfl⟩ := h; decide,
   getContext_appendContext_roundTrip (fun _ => true) ""
     [ContextElem.DrvDeep "/nix/store/arhvjaf6zmlyn8vh8fgn55rpwnxq0n7l-a.drv",
      ContextElem.Built "/nix/store/arhvjaf6zmlyn8vh8fgn55rpwnxq0n7l-a.drv" "out",
      ContextElem.Opaque "/nix/store/q"]
     (fun _ _ => rfl)
     (by intro p h; simp at h; subst h; decide)
     (by intro p o h; simp at h; obtain ⟨rfl, rfl⟩ := h; decide)⟩
